import Mathlib

/-!
# trainware: middleware trains over Go slices

A shallow embedding of `train.go` (package `trainware`) and of the helpers of
`train_test.go`.

A `train` is a Go slice of `middleware`.  A Go slice is a triple of a pointer
to a backing array, a length and a capacity, and the built-in `append` writes
into the backing array in place whenever the capacity allows it.  The embedding
therefore passes an explicit heap of backing arrays through `New`, `Add` and
`AddMany`, and `Apply` reads the elements of a train out of that heap.

The slices of this package always start at the first cell of their backing
array (the code never reslices), so the pointer of a slice is the index of its
backing array in the heap.

The variadic parameter of `AddMany` is a slice as well.  A call with individual
arguments passes a fresh backing array; a call `t.AddMany(s...)` passes the
slice `s` itself, whose cells the loop reads one by one while `Add` may write
into the same backing array.
-/

namespace Trainware

/-! ## Values -/

/-- Run-time panics of the Go code that the embedding can raise. -/
inductive Panic where
  /-- calling a nil func value -/
  | nilFuncCall
  /-- calling a method on a nil interface value -/
  | nilInterface
  /-- a single-value type assertion on a value of another dynamic type -/
  | typeAssertion
  deriving DecidableEq, Repr

/-- An `http.Handler` interface value: `nil`, or a handler of the type `H`. -/
inductive Handler (H : Type) where
  | nil : Handler H
  | val (h : H) : Handler H
  deriving DecidableEq, Repr

/-- The type `middleware func(http.Handler) http.Handler`: a func value is
either `nil` or a function from handlers to handlers. -/
inductive middleware (H : Type) where
  | nil : middleware H
  | fn (f : Handler H → Handler H) : middleware H

/-- The test `mw == nil` of `Add`. -/
def middleware.isNil {H : Type} : middleware H → Bool
  | .nil => true
  | .fn _ => false

/-! ## Go slices -/

/-- The heap: the backing arrays allocated so far, addressed by position. -/
abbrev Heap (H : Type) := List (List (middleware H))

/-- The type `train []middleware`, as a slice header: backing array, length and
capacity. -/
structure train where
  ptr : Nat
  len : Nat
  cap : Nat
  deriving DecidableEq, Repr

/-- The elements `t[0], ..., t[len-1]` that the slice header `t` denotes in the
heap `hp`. -/
def train.elems {H : Type} (hp : Heap H) (t : train) : List (middleware H) :=
  (hp.getD t.ptr []).take t.len

/-- A slice header is valid in a heap when its backing array is allocated, has
exactly `cap` cells, and `len` does not exceed `cap`. Every slice value of a
running Go program is valid. -/
def train.Valid {H : Type} (hp : Heap H) (t : train) : Prop :=
  t.ptr < hp.length ∧ (hp.getD t.ptr []).length = t.cap ∧ t.len ≤ t.cap

/-- How `append` chooses the capacity of a backing array it has to allocate:
`next oldCap newLen` is the new capacity, which always fits the new length. The
language leaves the choice to the implementation. -/
structure GrowthPolicy where
  next : Nat → Nat → Nat
  fits : ∀ oldCap newLen, newLen ≤ next oldCap newLen

/-- The loop of `nextslicecap` in the Go runtime for capacities from 256 on:
grow by about a quarter until the new length fits. -/
def growLoop : Nat → Nat → Nat → Nat
  | 0, newcap, _ => newcap
  | fuel + 1, newcap, newLen =>
    let newcap := newcap + (newcap + 3 * 256) / 4
    if newLen ≤ newcap then newcap else growLoop fuel newcap newLen

/-- The capacity computed by `nextslicecap` of the Go runtime (`runtime/slice.go`):
the new length if it exceeds twice the old capacity, twice the old capacity
below the threshold of 256, the result of the loop otherwise. The rounding up to
an allocation size class that follows in the runtime, and the stack buffer the
compiler may give to the first append of a local slice, are left out: a real
capacity can be larger than the one computed here (4 instead of 1 after a first
append, 143 instead of 128 after 65 appends). The general theorems of this file
hold for every growth policy; the closed instances rest on a train of three
elements having capacity 4, which holds with and without the stack buffer. -/
def nextslicecap (newLen oldCap : Nat) : Nat :=
  let doublecap := oldCap + oldCap
  if doublecap < newLen then newLen
  else if oldCap < 256 then doublecap
  else growLoop newLen oldCap newLen

/-- The growth policy of the Go runtime. -/
def goRuntime : GrowthPolicy where
  next := fun oldCap newLen => nextslicecap newLen oldCap
  fits := by
    intro oldCap newLen
    have key : ∀ fuel newcap, newLen ≤ newcap + 192 * fuel →
        newLen ≤ growLoop fuel newcap newLen := by
      intro fuel
      induction fuel with
      | zero => intro newcap h; simpa [growLoop] using h
      | succ k ih =>
        intro newcap h
        simp only [growLoop]
        split
        · assumption
        · apply ih
          omega
    unfold nextslicecap
    simp only
    split
    · exact le_refl _
    · split
      · omega
      · apply key
        omega

/-- The built-in `make([]middleware, n)`: a fresh backing array of `n` nil
cells. -/
def goMake {H : Type} (hp : Heap H) (n : Nat) : Heap H × train :=
  (hp ++ [List.replicate n middleware.nil], ⟨hp.length, n, n⟩)

/-- The built-in `append(t, mw)` for one element. When the capacity allows it,
`mw` is written into cell `len` of the backing array of `t`, which the result
shares; otherwise a larger array is allocated, the elements of `t` are copied
and `mw` is written after them. -/
def goAppend {H : Type} (g : GrowthPolicy) (hp : Heap H) (t : train) (mw : middleware H) :
    Heap H × train :=
  if t.len + 1 ≤ t.cap then
    (hp.set t.ptr ((hp.getD t.ptr []).set t.len mw), ⟨t.ptr, t.len + 1, t.cap⟩)
  else
    let newcap := g.next t.cap (t.len + 1)
    (hp ++ [t.elems hp ++ mw :: List.replicate (newcap - (t.len + 1)) middleware.nil],
      ⟨hp.length, t.len + 1, newcap⟩)

/-! ## train.go -/

/-- The function `New`: `train(make([]middleware, 0))`. -/
def New {H : Type} (hp : Heap H) : Heap H × train :=
  goMake hp 0

/-- The method `Add`: a nil middleware returns the receiver, any other is
appended. -/
def train.Add {H : Type} (g : GrowthPolicy) (hp : Heap H) (t : train) (mw : middleware H) :
    Heap H × train :=
  match mw with
  | .nil => (hp, t)
  | .fn f => goAppend g hp t (.fn f)

/-- The element `mws[i]` as a `range` loop reads it: out of the backing array of
`mws`, in the heap of the moment. -/
def train.index {H : Type} (hp : Heap H) (mws : train) (i : Nat) : middleware H :=
  (hp.getD mws.ptr []).getD i middleware.nil

/-- The loop `for _, mw := range mws { t = t.Add(mw) }` of `AddMany` with `n`
iterations left, the next one reading `mws[i]`. The header `mws` is evaluated
once, before the loop; each element is read when its turn comes. -/
def addManyLoop {H : Type} (g : GrowthPolicy) (mws : train) :
    Nat → Nat → Heap H → train → Heap H × train
  | 0, _, hp, t => (hp, t)
  | n + 1, i, hp, t =>
    let r := t.Add g hp (mws.index hp i)
    addManyLoop g mws n (i + 1) r.1 r.2

/-- The method `AddMany`, whose variadic parameter `mws` is a slice: the call
`t.AddMany(mws...)`. -/
def train.AddMany {H : Type} (g : GrowthPolicy) (hp : Heap H) (t : train) (mws : train) :
    Heap H × train :=
  addManyLoop g mws mws.len 0 hp t

/-- The slice that a call with the individual arguments `args` passes for a
variadic parameter: a fresh backing array holding the arguments. (Without
arguments Go passes the nil slice; the empty array allocated here is never read
or written.) -/
def goVariadic {H : Type} (hp : Heap H) (args : List (middleware H)) : Heap H × train :=
  (hp ++ [args], ⟨hp.length, args.length, args.length⟩)

/-- The call `t.AddMany(m1, ..., mn)` with individual arguments. -/
def train.AddManyOf {H : Type} (g : GrowthPolicy) (hp : Heap H) (t : train)
    (args : List (middleware H)) : Heap H × train :=
  t.AddMany g (goVariadic hp args).1 (goVariadic hp args).2

/-- One call `mw(handler)` of the loop of `Apply`; calling a nil func panics. -/
def callMiddleware {H : Type} (mw : middleware H) (handler : Handler H) :
    Except Panic (Handler H) :=
  match mw with
  | .nil => .error .nilFuncCall
  | .fn f => .ok (f handler)

/-- The loop `for _, mw := range t { handler = mw(handler) }` of `Apply`, over
the elements of the train. -/
def applyLoop {H : Type} : List (middleware H) → Handler H → Except Panic (Handler H)
  | [], handler => .ok handler
  | mw :: rest, handler =>
    match callMiddleware mw handler with
    | .error e => .error e
    | .ok handler => applyLoop rest handler

/-- The method `Apply`; `D` is `http.DefaultServeMux`. -/
def train.Apply {H : Type} (D : H) (hp : Heap H) (t : train) (handler : Handler H) :
    Except Panic (Handler H) :=
  let handler := match handler with
    | .nil => Handler.val D
    | .val h => Handler.val h
  applyLoop (t.elems hp) handler

/-! ## The calls of a client program -/

/-- A call a client makes: `New()`, or `Add` or `AddMany` on a train it obtained
from an earlier call, named by its position among the trains obtained so far.
`AddMany` is called with individual arguments, or with another obtained train
passed as the variadic slice. -/
inductive Call (H : Type) where
  | new : Call H
  | add (i : Nat) (mw : middleware H) : Call H
  | addMany (i : Nat) (mws : List (middleware H)) : Call H
  | addManySlice (i j : Nat) : Call H

/-- The state of a client: the heap, and the trains its calls have returned. -/
structure Client (H : Type) where
  heap : Heap H
  trains : List train

/-- The client keeps the train a call returned, along with the new heap. -/
def Client.keep {H : Type} (s : Client H) (r : Heap H × train) : Client H :=
  ⟨r.1, s.trains ++ [r.2]⟩

/-- Executes one call. A call on a train that was never obtained does nothing. -/
def Client.step {H : Type} (g : GrowthPolicy) (s : Client H) : Call H → Client H
  | .new => s.keep (New s.heap)
  | .add i mw =>
    match s.trains[i]? with
    | none => s
    | some t => s.keep (t.Add g s.heap mw)
  | .addMany i mws =>
    match s.trains[i]? with
    | none => s
    | some t => s.keep (t.AddManyOf g s.heap mws)
  | .addManySlice i j =>
    match s.trains[i]?, s.trains[j]? with
    | some t, some mws => s.keep (t.AddMany g s.heap mws)
    | _, _ => s

/-- Executes a sequence of calls from the empty heap. -/
def Client.run {H : Type} (g : GrowthPolicy) (calls : List (Call H)) : Client H :=
  calls.foldl (Client.step g) ⟨[], []⟩

/-! ## train_test.go -/

/-- What a handler of the tests sees of a request: the `[]int` stored under the
context key `"testValue"`, if there is one. -/
abbrev Request := Option (List Int)

/-- What a handler of the tests answers: the list it writes as the body (the
test decodes the JSON body back to the list), or a panic. -/
abbrev Response := Except Panic (List Int)

/-- An `http.HandlerFunc` of the tests. -/
abbrev HandlerFunc := Request → Response

/-- The call `h.ServeHTTP(w, r)` on an interface value. -/
def ServeHTTP (h : Handler HandlerFunc) (r : Request) : Response :=
  match h with
  | .nil => .error .nilInterface
  | .val f => f r

/-- The helper `helperContextMiddleware(n)`: appends `n` to the list of the
request, or creates `[n]`, and calls the wrapped handler. -/
def helperContextMiddleware (n : Int) : middleware HandlerFunc :=
  .fn (fun h => .val (fun r =>
    let slice := match r with
      | some slice => slice ++ [n]
      | none => [n]
    ServeHTTP h (some slice)))

/-- The handler `helperContextHandler`: writes the list of the request; its
type assertion `.([]int)` panics when the request carries none. -/
def helperContextHandler : Handler HandlerFunc :=
  .val (fun r =>
    match r with
    | some out => .ok out
    | none => .error .typeAssertion)

/-- The loop `for _, n := range testValues { train = train.Add(helperContextMiddleware(n)) }`
of `TestContextMiddlewareTrain`. -/
def addMarkers (g : GrowthPolicy) (hp : Heap HandlerFunc) (t : train) :
    List Int → Heap HandlerFunc × train
  | [] => (hp, t)
  | n :: ns =>
    let r := t.Add g hp (helperContextMiddleware n)
    addMarkers g r.1 r.2 ns

/-- The body of `TestContextMiddlewareTrain` up to the decoded result, for the
test values `testValues`: build the train from `New()`, apply it to
`helperContextHandler`, and serve one request without a list. -/
def contextMiddlewareTrain (g : GrowthPolicy) (D : HandlerFunc) (hp : Heap HandlerFunc)
    (testValues : List Int) : Response :=
  let r0 : Heap HandlerFunc × train := New hp
  let r := addMarkers g r0.1 r0.2 testValues
  match r.2.Apply D r.1 helperContextHandler with
  | .error e => .error e
  | .ok testTrainHandler => ServeHTTP testTrainHandler none

/-- A train is sound in a heap when it is valid there and none of its elements is
nil. -/
def train.Sound {H : Type} (hp : Heap H) (t : train) : Prop :=
  t.Valid hp ∧ ∀ mw ∈ t.elems hp, mw.isNil = false

/-- The trains of a client that extends one base train along two branches. -/
structure Branches (H : Type) where
  /-- the heap when `base` was obtained -/
  heapAtBase : Heap H
  /-- the heap after both branches were built -/
  heap : Heap H
  base : train
  a : train
  b : train

/-- The client code `base := New().AddMany(mws...)`, then `a := base.Add(A)`
followed by `b := base.Add(B)`. -/
def twoBranches {H : Type} (g : GrowthPolicy) (mws : List (middleware H)) (A B : middleware H) :
    Branches H :=
  let r0 : Heap H × train := New []
  let rbase := r0.2.AddManyOf g r0.1 mws
  let ra := rbase.2.Add g rbase.1 A
  let rb := rbase.2.Add g ra.1 B
  ⟨rbase.1, rb.1, rbase.2, ra.2, rb.2⟩

/-- The two branches of a base train of the markers 1, 2, 3, extended by the
marker 4 along one branch and by the marker 5 along the other, under the growth
policy of the Go runtime. -/
def markerBranches : Branches HandlerFunc :=
  twoBranches goRuntime
    [helperContextMiddleware 1, helperContextMiddleware 2, helperContextMiddleware 3]
    (helperContextMiddleware 4) (helperContextMiddleware 5)

/-- What the tests observe of a train with the given elements: the loop of
`Apply` over `helperContextHandler`, then one request without a list. -/
def observe (elems : List (middleware HandlerFunc)) : Response :=
  match applyLoop elems helperContextHandler with
  | .error e => .error e
  | .ok h => ServeHTTP h none

/-- What a test reads back from a train: `t.Apply(helperContextHandler)`, then
one request without a list served by the composed handler. -/
def serveTrain (D : HandlerFunc) (hp : Heap HandlerFunc) (t : train) : Response :=
  match t.Apply D hp helperContextHandler with
  | .error e => .error e
  | .ok testTrainHandler => ServeHTTP testTrainHandler none

/-- The trains and decoded results of `TestContextMiddlewareMultipleTrains`. -/
structure MultipleTrains where
  /-- the heap when `applier1` was obtained -/
  heapAtApplier1 : Heap HandlerFunc
  /-- the heap after `applier2` was obtained, in which both trains are applied -/
  heap : Heap HandlerFunc
  applier1 : train
  applier2 : train
  result1 : Response
  result2 : Response

/-- The body of `TestContextMiddlewareMultipleTrains` up to the two decoded
results, for the markers `first` of `applier1 := New().AddMany(...)` and the
markers `second` of `applier2 := applier1.AddMany(...)`; both trains are applied
once both exist. -/
def contextMiddlewareMultipleTrains (g : GrowthPolicy) (D : HandlerFunc)
    (hp : Heap HandlerFunc) (first second : List Int) : MultipleTrains :=
  let r0 : Heap HandlerFunc × train := New hp
  let r1 := r0.2.AddManyOf g r0.1 (first.map helperContextMiddleware)
  let r2 := r1.2.AddManyOf g r1.1 (second.map helperContextMiddleware)
  ⟨r1.1, r2.1, r1.2, r2.2, serveTrain D r2.1 r1.2, serveTrain D r2.1 r2.2⟩

/-- A base train and a longer train that lies over the same backing array. -/
structure Shared where
  /-- the heap once `long` was obtained -/
  heap : Heap HandlerFunc
  base : train
  long : train

/-- The client code `base := New().AddMany(w1, w2, w3)`, then
`long := base.Add(w4)`, for the markers 1 to 4 under the growth policy of the Go
runtime: `base` has length 3 and capacity 4, and `long[3]` is its spare cell. -/
def markerShared : Shared :=
  let r0 : Heap HandlerFunc × train := New []
  let rbase := r0.2.AddManyOf goRuntime r0.1
    [helperContextMiddleware 1, helperContextMiddleware 2, helperContextMiddleware 3]
  let rlong := rbase.2.Add goRuntime rbase.1 (helperContextMiddleware 4)
  ⟨rlong.1, rbase.2, rlong.2⟩

/-- Serves one request without a list through the handler an `Apply` returned. -/
def serveApplied (applied : Except Panic (Handler HandlerFunc)) : Response :=
  match applied with
  | .error e => .error e
  | .ok h => ServeHTTP h none

/-- The two handlers of a client that compares both sides of the distribution of
`Apply` over an extension. -/
structure Distribution where
  /-- the handler `Apply(AddMany(c, mws...), h)` -/
  extended : Except Panic (Handler HandlerFunc)
  /-- the handler `Apply(AddMany(New(), mws...), Apply(c, h))` -/
  composed : Except Panic (Handler HandlerFunc)
  /-- the handler `Apply(c, h)` -/
  inner : Except Panic (Handler HandlerFunc)

/-- The client code, after `markerShared`, with `c := base`, `mws := long` and
`h := helperContextHandler`: first `fresh := New().AddMany(long...)` and
`composed := fresh.Apply(base.Apply(h))`, then `extended :=
base.AddMany(long...).Apply(h)`. -/
def markerDistribution (D : HandlerFunc) : Distribution :=
  let r0 : Heap HandlerFunc × train := New markerShared.heap
  let rfresh := r0.2.AddMany goRuntime r0.1 markerShared.long
  let inner := markerShared.base.Apply D rfresh.1 helperContextHandler
  let composed := inner.bind (fun r => rfresh.2.Apply D rfresh.1 r)
  let rext := markerShared.base.AddMany goRuntime rfresh.1 markerShared.long
  ⟨rext.2.Apply D rext.1 helperContextHandler, composed, inner⟩

/-- The trains of a client that compares two `AddMany` calls with one call on
the concatenation. -/
structure Concatenation where
  /-- the heap after all calls -/
  heap : Heap HandlerFunc
  /-- the entries of `xs` followed by those of `ys`, as copied before the calls -/
  all : List (middleware HandlerFunc)
  twoCalls : train
  oneCall : train

/-- The client code, after `markerShared`, with `c := base`, `xs := long` and
`ys` the marker 5: `all` copies the entries of `long` and appends the marker 5,
then `twoCalls := base.AddMany(long...).AddMany(w5)` and
`oneCall := base.AddMany(all...)`. -/
def markerConcatenation : Concatenation :=
  let all := markerShared.long.elems markerShared.heap ++ [helperContextMiddleware 5]
  let r1 := markerShared.base.AddMany goRuntime markerShared.heap markerShared.long
  let r2 := r1.2.AddManyOf goRuntime r1.1 [helperContextMiddleware 5]
  let r3 := markerShared.base.AddManyOf goRuntime r2.1 all
  ⟨r3.1, all, r2.2, r3.2⟩

/-! ## The wordings of the specification -/

/-- The specification's "calling Add sequentially for each item, in order". -/
def addEach {H : Type} (g : GrowthPolicy) (hp : Heap H) (t : train)
    (mws : List (middleware H)) : Heap H × train :=
  mws.foldl (fun r mw => r.2.Add g r.1 mw) (hp, t)

/-- The specification's `M1(M2(...Mn(terminal)...))`: the first function of the
list is the outermost layer. -/
def firstOutermost {H : Type} (fs : List (Handler H → Handler H)) (terminal : Handler H) :
    Handler H :=
  fs.foldr (fun f acc => f acc) terminal

/-- The nesting `Mn(...M2(M1(terminal))...)`: the last function of the list is
the outermost layer. -/
def lastOutermost {H : Type} (fs : List (Handler H → Handler H)) (terminal : Handler H) :
    Handler H :=
  fs.reverse.foldr (fun f acc => f acc) terminal

/-! ## Slices: elements and validity -/

theorem getD_set_self {H : Type} (hp : Heap H) (i : Nat) (arr : List (middleware H))
    (h : i < hp.length) : (hp.set i arr).getD i [] = arr := by
  simp [List.getD_eq_getElem?_getD, List.getElem?_set, h]

theorem getD_set_other {H : Type} (hp : Heap H) (i j : Nat) (arr : List (middleware H))
    (h : i ≠ j) : (hp.set i arr).getD j [] = hp.getD j [] := by
  simp [List.getD_eq_getElem?_getD, List.getElem?_set, h]

theorem getD_concat_length {H : Type} (hp : Heap H) (arr : List (middleware H)) :
    (hp ++ [arr]).getD hp.length [] = arr := by
  simp [List.getD_eq_getElem?_getD]

theorem getD_concat_lt {H : Type} (hp : Heap H) (arr : List (middleware H)) (i : Nat)
    (h : i < hp.length) : (hp ++ [arr]).getD i [] = hp.getD i [] := by
  simp [List.getD_eq_getElem?_getD, List.getElem?_append_left h]

theorem take_succ_set {α : Type} (arr : List α) (n : Nat) (x : α) (h : n < arr.length) :
    (arr.set n x).take (n + 1) = arr.take n ++ [x] := by
  induction arr generalizing n with
  | nil => simp at h
  | cons a as ih =>
    cases n with
    | zero => simp
    | succ k =>
      simp only [List.length_cons, Nat.add_lt_add_iff_right] at h
      simp [ih k h]

theorem take_append_cons {α : Type} (xs zs : List α) (y : α) (n : Nat) (h : xs.length = n) :
    (xs ++ y :: zs).take (n + 1) = xs ++ [y] := by
  subst h
  induction xs with
  | nil => simp
  | cons a as ih => simpa using ih

theorem elems_length {H : Type} (hp : Heap H) (t : train) (hv : t.Valid hp) :
    (t.elems hp).length = t.len := by
  obtain ⟨_, h2, h3⟩ := hv
  simp only [train.elems, List.length_take]
  omega

theorem elems_goAppend {H : Type} (g : GrowthPolicy) (hp : Heap H) (t : train)
    (mw : middleware H) (hv : t.Valid hp) :
    (goAppend g hp t mw).2.elems (goAppend g hp t mw).1 = t.elems hp ++ [mw] := by
  obtain ⟨h1, h2, h3⟩ := hv
  unfold goAppend
  split
  · simp only [train.elems]
    rw [getD_set_self hp t.ptr _ h1]
    exact take_succ_set _ _ _ (by omega)
  · have hl : (t.elems hp).length = t.len := elems_length hp t ⟨h1, h2, h3⟩
    simp only [train.elems] at hl ⊢
    rw [getD_concat_length]
    exact take_append_cons _ _ _ _ hl

theorem valid_goAppend {H : Type} (g : GrowthPolicy) (hp : Heap H) (t : train)
    (mw : middleware H) (hv : t.Valid hp) :
    (goAppend g hp t mw).2.Valid (goAppend g hp t mw).1 := by
  obtain ⟨h1, h2, h3⟩ := hv
  unfold goAppend
  split
  · refine ⟨by simpa using h1, ?_, by assumption⟩
    simp only []
    rw [getD_set_self hp t.ptr _ h1]
    simpa using h2
  · have hl : (t.elems hp).length = t.len := elems_length hp t ⟨h1, h2, h3⟩
    have hf := g.fits t.cap (t.len + 1)
    refine ⟨by simp, ?_, hf⟩
    simp only []
    rw [getD_concat_length]
    simp [hl]
    omega

theorem valid_New {H : Type} (hp : Heap H) : (New hp).2.Valid (New hp).1 := by
  refine ⟨by simp [New, goMake], ?_, le_refl _⟩
  simp only [New, goMake]
  rw [getD_concat_length]
  rfl

theorem elems_New {H : Type} (hp : Heap H) : (New hp).2.elems (New hp).1 = [] := by
  simp [New, goMake, train.elems]

theorem valid_Add {H : Type} (g : GrowthPolicy) (hp : Heap H) (t : train)
    (mw : middleware H) (hv : t.Valid hp) :
    (t.Add g hp mw).2.Valid (t.Add g hp mw).1 := by
  cases mw with
  | nil => exact hv
  | fn f => exact valid_goAppend g hp t _ hv

theorem elems_Add {H : Type} (g : GrowthPolicy) (hp : Heap H) (t : train)
    (mw : middleware H) (hv : t.Valid hp) :
    (t.Add g hp mw).2.elems (t.Add g hp mw).1
      = t.elems hp ++ [mw].filter (fun m => !m.isNil) := by
  cases mw with
  | nil => simp [train.Add, middleware.isNil]
  | fn f => simpa [train.Add, middleware.isNil] using elems_goAppend g hp t (.fn f) hv

theorem addEach_cons {H : Type} (g : GrowthPolicy) (hp : Heap H) (t : train)
    (mw : middleware H) (rest : List (middleware H)) :
    addEach g hp t (mw :: rest) = addEach g (t.Add g hp mw).1 (t.Add g hp mw).2 rest :=
  rfl

theorem valid_addEach {H : Type} (g : GrowthPolicy) (mws : List (middleware H)) :
    ∀ (hp : Heap H) (t : train), t.Valid hp →
      (addEach g hp t mws).2.Valid (addEach g hp t mws).1 := by
  induction mws with
  | nil => intro hp t hv; exact hv
  | cons mw rest ih =>
    intro hp t hv
    rw [addEach_cons]
    exact ih _ _ (valid_Add g hp t mw hv)

theorem elems_addEach {H : Type} (g : GrowthPolicy) (mws : List (middleware H)) :
    ∀ (hp : Heap H) (t : train), t.Valid hp →
      (addEach g hp t mws).2.elems (addEach g hp t mws).1
        = t.elems hp ++ mws.filter (fun m => !m.isNil) := by
  induction mws with
  | nil => intro hp t _; simp [addEach]
  | cons mw rest ih =>
    intro hp t hv
    rw [addEach_cons, ih _ _ (valid_Add g hp t mw hv), elems_Add g hp t mw hv,
      List.append_assoc, ← List.filter_append]
    rfl

/-! ## The loop of Apply -/

theorem applyLoop_append {H : Type} (xs ys : List (middleware H)) :
    ∀ h : Handler H, applyLoop (xs ++ ys) h = (applyLoop xs h).bind (applyLoop ys) := by
  induction xs with
  | nil => intro h; rfl
  | cons mw rest ih =>
    intro h
    cases mw with
    | nil => rfl
    | fn f => simpa [applyLoop, callMiddleware] using ih (f h)

theorem applyLoop_concat_fn {H : Type} (xs : List (middleware H)) (f : Handler H → Handler H)
    (h : Handler H) :
    applyLoop (xs ++ [middleware.fn f]) h = (applyLoop xs h).map f := by
  rw [applyLoop_append]
  cases applyLoop xs h <;> rfl

theorem applyLoop_map_fn {H : Type} (fs : List (Handler H → Handler H)) :
    ∀ h : Handler H, applyLoop (fs.map middleware.fn) h = .ok (lastOutermost fs h) := by
  induction fs with
  | nil => intro h; rfl
  | cons f rest ih =>
    intro h
    simp only [List.map_cons, applyLoop, callMiddleware]
    rw [ih (f h)]
    simp [lastOutermost, List.foldr_append]

/-! ## The ordering test -/

theorem addMarkers_eq_addEach (g : GrowthPolicy) (ns : List Int) :
    ∀ (hp : Heap HandlerFunc) (t : train),
      addMarkers g hp t ns = addEach g hp t (ns.map helperContextMiddleware) := by
  induction ns with
  | nil => intro hp t; rfl
  | cons n rest ih =>
    intro hp t
    simp only [addMarkers, List.map_cons, addEach_cons]
    exact ih _ _

theorem filter_markers (ns : List Int) :
    (ns.map helperContextMiddleware).filter (fun m => !m.isNil)
      = ns.map helperContextMiddleware := by
  induction ns with
  | nil => rfl
  | cons n rest ih => simp [List.filter_cons, helperContextMiddleware, middleware.isNil]

theorem serve_markers (ns : List Int) :
    ∀ (h : Handler HandlerFunc) (r : Request),
      ∃ composed, applyLoop (ns.map helperContextMiddleware) h = .ok composed ∧
        ServeHTTP composed r
          = ServeHTTP h (if ns = [] then r else some (r.getD [] ++ ns.reverse)) := by
  induction ns with
  | nil => intro h r; exact ⟨h, rfl, by simp⟩
  | cons n rest ih =>
    intro h r
    obtain ⟨composed, h1, h2⟩ := ih ((fun h => Handler.val (fun r =>
      ServeHTTP h (some (match r with
        | some slice => slice ++ [n]
        | none => [n])))) h) r
    refine ⟨composed, ?_, ?_⟩
    · simpa [applyLoop, callMiddleware, helperContextMiddleware] using h1
    · rw [h2]
      by_cases hr : rest = []
      · subst hr
        cases r <;> simp [ServeHTTP]
      · simp [ServeHTTP, hr]

/-- C1, as amended: for every non-empty list `ns` of integers, the train built
from `New()` by `Add(helperContextMiddleware(n))` for each `n` of `ns` in order,
applied to `helperContextHandler` and served one request without a list, answers
`ns` reversed; the middleware added last runs first. -/
theorem contextMiddlewareTrain_reverse (g : GrowthPolicy) (D : HandlerFunc)
    (hp : Heap HandlerFunc) (ns : List Int) (hne : ns ≠ []) :
    contextMiddlewareTrain g D hp ns = .ok ns.reverse := by
  unfold contextMiddlewareTrain
  simp only [addMarkers_eq_addEach]
  have he := elems_addEach g (ns.map helperContextMiddleware) _ _ (valid_New hp)
  rw [elems_New, filter_markers, List.nil_append] at he
  obtain ⟨composed, h1, h2⟩ := serve_markers ns helperContextHandler none
  simp only [train.Apply, helperContextHandler, he] at h1 h2 ⊢
  rw [h1]
  simp only [h2, hne, if_false]
  simp [ServeHTTP]

/-- C1, witness: the test values 1, 2, 3, 4, 5 of the test give 5, 4, 3, 2, 1. -/
theorem contextMiddlewareTrain_reverse_witness :
    ([1, 2, 3, 4, 5] : List Int) ≠ [] ∧
      contextMiddlewareTrain goRuntime (fun _ => .ok []) [] [1, 2, 3, 4, 5]
        = .ok [5, 4, 3, 2, 1] :=
  ⟨by decide, contextMiddlewareTrain_reverse goRuntime (fun _ => .ok []) [] [1, 2, 3, 4, 5]
    (by decide)⟩

/-- C1, counterexample: with no test value the train is empty, `Apply` returns
`helperContextHandler` itself, and its type assertion panics on the request
without a list; the answer is not the empty list. -/
theorem contextMiddlewareTrain_empty_panics :
    contextMiddlewareTrain goRuntime (fun _ => .ok []) [] [] = .error .typeAssertion ∧
      contextMiddlewareTrain goRuntime (fun _ => .ok []) [] [] ≠ .ok ([] : List Int).reverse := by
  constructor
  · rfl
  · intro h
    cases h

/-! ## Composition order -/

theorem filter_map_fn {H : Type} (fs : List (Handler H → Handler H)) :
    (fs.map middleware.fn).filter (fun m => !m.isNil) = fs.map middleware.fn := by
  induction fs with
  | nil => rfl
  | cons f rest ih => simp [List.filter_cons, middleware.isNil]

/-- C2, as amended: for every sequence of non-nil middleware `M1..Mn` added in
that order to `New()` with `Add`, and every non-nil terminal handler `h`, `Apply`
returns `Mn(...M2(M1(h))...)`: the last-added middleware is the outermost layer
and the first-added the innermost; for three middleware it is `M3(M2(M1(h)))`. -/
theorem apply_last_added_outermost {H : Type} (g : GrowthPolicy) (D : H) (hp : Heap H)
    (fs : List (Handler H → Handler H)) (h : H) :
    (addEach g (New hp).1 (New hp).2 (fs.map middleware.fn)).2.Apply D
        (addEach g (New hp).1 (New hp).2 (fs.map middleware.fn)).1 (.val h)
      = .ok (lastOutermost fs (.val h)) ∧
    ∀ M1 M2 M3 : Handler H → Handler H, lastOutermost [M1, M2, M3] (.val h) = M3 (M2 (M1 (.val h))) := by
  constructor
  · have he := elems_addEach g (fs.map middleware.fn) _ _ (valid_New hp)
    rw [elems_New, filter_map_fn, List.nil_append] at he
    simp only [train.Apply, he]
    exact applyLoop_map_fn fs _
  · intro M1 M2 M3
    rfl

/-- C2, counterexample: with `M1` answering the handler 1 and `M2` the handler 2
whatever they wrap, `Apply` returns `M2(M1(h))`, the handler 2, and not
`M1(M2(h))`, the handler 1. -/
theorem apply_not_first_added_outermost :
    (addEach goRuntime (New ([] : Heap Nat)).1 (New ([] : Heap Nat)).2
        [middleware.fn (fun _ => Handler.val 1), middleware.fn (fun _ => Handler.val 2)]).2.Apply 0
      (addEach goRuntime (New ([] : Heap Nat)).1 (New ([] : Heap Nat)).2
        [middleware.fn (fun _ => Handler.val 1), middleware.fn (fun _ => Handler.val 2)]).1
      (Handler.val 7)
      ≠ .ok (firstOutermost [fun _ => Handler.val 1, fun _ => Handler.val 2] (Handler.val 7)) := by
  intro h
  have h2 : (Except.ok (Handler.val 2) : Except Panic (Handler Nat)) = .ok (Handler.val 1) := h
  simp at h2

/-- C3: for every train `c`, every non-nil middleware `mw` and every handler `h`
(nil included), `Apply(Add(c, mw), h)` is `mw(Apply(c, h))`: the middleware added
last becomes the outermost wrapper. -/
theorem apply_add_wraps {H : Type} (g : GrowthPolicy) (D : H) (hp : Heap H) (c : train)
    (mw : Handler H → Handler H) (h : Handler H) (hv : c.Valid hp) :
    (c.Add g hp (.fn mw)).2.Apply D (c.Add g hp (.fn mw)).1 h
      = (c.Apply D hp h).map mw := by
  have he := elems_Add g hp c (.fn mw) hv
  simp only [middleware.isNil, Bool.not_false, List.filter_cons_of_pos, List.filter_nil] at he
  simp only [train.Apply, he]
  exact applyLoop_concat_fn _ _ _

/-- C3, witness: a train of length 1 and capacity 2 whose element is the
identity, a middleware that answers the handler 1, and the nil handler; the
middleware is written into the free cell of the backing array. -/
theorem apply_add_wraps_witness :
    train.Valid ([[.fn id, .nil]] : Heap Nat) ⟨0, 1, 2⟩ ∧
    (train.Add goRuntime ([[.fn id, .nil]] : Heap Nat) ⟨0, 1, 2⟩
        (.fn (fun _ => Handler.val 1))).2.Apply 0
      (train.Add goRuntime ([[.fn id, .nil]] : Heap Nat) ⟨0, 1, 2⟩
        (.fn (fun _ => Handler.val 1))).1 Handler.nil
      = (train.Apply 0 ([[.fn id, .nil]] : Heap Nat) ⟨0, 1, 2⟩ Handler.nil).map
          (fun _ => Handler.val 1) :=
  ⟨by simp [train.Valid],
    apply_add_wraps goRuntime 0 ([[.fn id, .nil]] : Heap Nat) ⟨0, 1, 2⟩
      (fun _ => Handler.val 1) Handler.nil (by simp [train.Valid])⟩

/-! ## Branches of one base train -/

/-- Whenever a valid base train has spare capacity, the element that
`a := base.Add(A)` appended is replaced by `B` once `b := base.Add(B)` has run. -/
theorem spare_capacity_overwrites {H : Type} (g : GrowthPolicy) (hp : Heap H) (base : train)
    (A B : Handler H → Handler H) (hv : base.Valid hp) (hspare : base.len < base.cap) :
    (base.Add g hp (.fn A)).2.elems (base.Add g (base.Add g hp (.fn A)).1 (.fn B)).1
      = base.elems hp ++ [.fn B] := by
  obtain ⟨h1, h2, _⟩ := hv
  have hc : base.len + 1 ≤ base.cap := hspare
  simp only [train.Add, goAppend, hc, if_true, train.elems]
  rw [getD_set_self _ _ _ (by simpa using h1), getD_set_self _ _ _ h1,
    take_succ_set _ _ _ (by rw [List.length_set, h2]; exact hspare), List.set_take,
    List.set_eq_of_length_le (by simp)]

/-- C4, the code at the failing input: `base` is built from `New()` by adding the
markers 1, 2, 3 (length 3, capacity 4), then `a := base.Add(marker 4)` and
`b := base.Add(marker 5)`. Both appends write cell 3 of the one backing array:
afterwards the elements of `a` are those of `base` followed by the marker 5, not
by the marker 4, and a request served through `a` answers 5, 3, 2, 1. The
elements of `b` and of `base` are as the claim says. -/
theorem add_overwrites_sibling_branch :
    markerBranches.base = ⟨4, 3, 4⟩ ∧
    markerBranches.a = ⟨4, 4, 4⟩ ∧
    markerBranches.b = ⟨4, 4, 4⟩ ∧
    markerBranches.base.elems markerBranches.heapAtBase
      = [helperContextMiddleware 1, helperContextMiddleware 2, helperContextMiddleware 3] ∧
    markerBranches.a.elems markerBranches.heap
      = markerBranches.base.elems markerBranches.heapAtBase ++ [helperContextMiddleware 5] ∧
    markerBranches.a.elems markerBranches.heap
      ≠ markerBranches.base.elems markerBranches.heapAtBase ++ [helperContextMiddleware 4] ∧
    observe (markerBranches.a.elems markerBranches.heap) = .ok [5, 3, 2, 1] ∧
    markerBranches.b.elems markerBranches.heap
      = markerBranches.base.elems markerBranches.heapAtBase ++ [helperContextMiddleware 5] ∧
    markerBranches.base.elems markerBranches.heap
      = markerBranches.base.elems markerBranches.heapAtBase := by
  refine ⟨rfl, rfl, rfl, rfl, rfl, ?_, rfl, rfl, rfl⟩
  intro h
  have h2 := congrArg observe h
  have h3 : (Except.ok [5, 3, 2, 1] : Response) = .ok [4, 3, 2, 1] := h2
  simp at h3

/-! ## Add, New and the nil handler -/

/-- C5: for every train `c`, `Add(c, nil)` returns `c` itself and leaves the heap
as it is: same length, same elements in the same order, and the same result from
`Apply` for every handler. -/
theorem add_nil_returns_receiver {H : Type} (g : GrowthPolicy) (hp : Heap H) (c : train) :
    c.Add g hp middleware.nil = (hp, c) ∧
    (c.Add g hp middleware.nil).2.len = c.len ∧
    (c.Add g hp middleware.nil).2.elems (c.Add g hp middleware.nil).1 = c.elems hp ∧
    ∀ (D : H) (h : Handler H),
      (c.Add g hp middleware.nil).2.Apply D (c.Add g hp middleware.nil).1 h
        = c.Apply D hp h :=
  ⟨rfl, rfl, rfl, fun _ _ => rfl⟩

/-- C7: for every train `c` of length `n` and every non-nil middleware `mw`,
`Add(c, mw)` has length `n + 1`, its first `n` elements are those of `c` in the
same order, and its last element is `mw`. -/
theorem add_appends_at_end {H : Type} (g : GrowthPolicy) (hp : Heap H) (c : train)
    (mw : Handler H → Handler H) (hv : c.Valid hp) :
    (c.Add g hp (.fn mw)).2.len = c.len + 1 ∧
    ((c.Add g hp (.fn mw)).2.elems (c.Add g hp (.fn mw)).1).length
      = (c.elems hp).length + 1 ∧
    ((c.Add g hp (.fn mw)).2.elems (c.Add g hp (.fn mw)).1).take c.len = c.elems hp ∧
    ((c.Add g hp (.fn mw)).2.elems (c.Add g hp (.fn mw)).1).getLast? = some (.fn mw) ∧
    (c.Add g hp (.fn mw)).2.elems (c.Add g hp (.fn mw)).1 = c.elems hp ++ [.fn mw] := by
  have he := elems_Add g hp c (.fn mw) hv
  simp only [middleware.isNil, Bool.not_false, List.filter_cons_of_pos, List.filter_nil] at he
  have hl := elems_length hp c hv
  refine ⟨?_, ?_, ?_, ?_, he⟩
  · simp only [train.Add, goAppend]
    split <;> rfl
  · rw [he]; simp
  · rw [he, ← hl]; simp
  · rw [he]; simp

/-- C7, witness: a train of length 1 and capacity 2; the middleware is written
into the free cell of the backing array. -/
theorem add_appends_at_end_witness :
    train.Valid ([[.fn id, .nil]] : Heap Nat) ⟨0, 1, 2⟩ ∧
    (train.Add goRuntime ([[.fn id, .nil]] : Heap Nat) ⟨0, 1, 2⟩ (.fn (fun _ => .val 1))).2.len
      = 1 + 1 :=
  ⟨by simp [train.Valid],
    (add_appends_at_end goRuntime ([[.fn id, .nil]] : Heap Nat) ⟨0, 1, 2⟩ (fun _ => .val 1)
      (by simp [train.Valid])).1⟩

/-- C8: `New()` returns a train of length 0, without elements, and for every
non-nil handler `h`, `Apply(New(), h)` returns `h` itself. -/
theorem new_empty_apply_identity {H : Type} (D : H) (hp : Heap H) (h : H) :
    (New hp).2.len = 0 ∧
    (New hp).2.elems (New hp).1 = [] ∧
    (New hp).2.Apply D (New hp).1 (.val h) = .ok (.val h) := by
  refine ⟨rfl, elems_New hp, ?_⟩
  simp only [train.Apply, elems_New]
  rfl

/-- C9: for every train `c`, `Apply(c, nil)` is `Apply(c, D)` for the default
handler `D`: the loop over the elements of the train starts from `D`, so that the
first middleware, if any, is called with `D` and not with nil; and
`Apply(New(), nil)` is `D`. -/
theorem apply_nil_uses_default {H : Type} (D : H) (hp : Heap H) (c : train) :
    c.Apply D hp Handler.nil = c.Apply D hp (.val D) ∧
    c.Apply D hp Handler.nil = applyLoop (c.elems hp) (.val D) ∧
    (∀ (first : middleware H) (rest : List (middleware H)),
      applyLoop (first :: rest) (.val D)
        = (callMiddleware first (.val D)).bind (applyLoop rest)) ∧
    (New hp).2.Apply D (New hp).1 Handler.nil = .ok (.val D) := by
  refine ⟨rfl, rfl, ?_, ?_⟩
  · intro first rest
    simp only [applyLoop]
    cases callMiddleware first (Handler.val D) <;> rfl
  · simp only [train.Apply, elems_New]
    rfl

/-! ## Extending a train leaves it as it was -/

theorem valid_frame_goAppend {H : Type} (g : GrowthPolicy) (hp : Heap H) (t s : train)
    (mw : middleware H) (ht : t.Valid hp) (hs : s.Valid hp) :
    s.Valid (goAppend g hp t mw).1 := by
  obtain ⟨h1, h2, h3⟩ := hs
  unfold goAppend
  split
  · refine ⟨by simpa using h1, ?_, h3⟩
    by_cases hp2 : t.ptr = s.ptr
    · simp only []
      rw [← hp2, getD_set_self hp t.ptr _ ht.1, List.length_set, hp2]
      exact h2
    · simp only []
      rw [getD_set_other hp _ _ _ hp2]
      exact h2
  · refine ⟨by simp; omega, ?_, h3⟩
    simp only []
    rw [getD_concat_lt hp _ _ h1]
    exact h2

theorem elems_frame_goAppend {H : Type} (g : GrowthPolicy) (hp : Heap H) (t s : train)
    (mw : middleware H) (ht : t.Valid hp) (hs : s.Valid hp)
    (hlater : t.ptr = s.ptr → s.len ≤ t.len) :
    s.elems (goAppend g hp t mw).1 = s.elems hp := by
  unfold goAppend
  split
  · simp only [train.elems]
    by_cases hp2 : t.ptr = s.ptr
    · rw [← hp2, getD_set_self hp t.ptr _ ht.1, List.set_take]
      apply List.set_eq_of_length_le
      have := hlater hp2
      simp only [List.length_take]
      omega
    · rw [getD_set_other hp _ _ _ hp2]
  · simp only [train.elems]
    rw [getD_concat_lt hp _ _ hs.1]

theorem later_goAppend {H : Type} (g : GrowthPolicy) (hp : Heap H) (t s : train)
    (mw : middleware H) (hs : s.Valid hp) (hlater : t.ptr = s.ptr → s.len ≤ t.len) :
    (goAppend g hp t mw).2.ptr = s.ptr → s.len ≤ (goAppend g hp t mw).2.len := by
  unfold goAppend
  split
  · intro h
    have := hlater h
    simp only []
    omega
  · intro h
    have := hs.1
    simp only [] at h
    omega

theorem valid_frame_Add {H : Type} (g : GrowthPolicy) (hp : Heap H) (t s : train)
    (mw : middleware H) (ht : t.Valid hp) (hs : s.Valid hp) :
    s.Valid (t.Add g hp mw).1 := by
  cases mw with
  | nil => exact hs
  | fn f => exact valid_frame_goAppend g hp t s _ ht hs

theorem elems_frame_Add {H : Type} (g : GrowthPolicy) (hp : Heap H) (t s : train)
    (mw : middleware H) (ht : t.Valid hp) (hs : s.Valid hp)
    (hlater : t.ptr = s.ptr → s.len ≤ t.len) :
    s.elems (t.Add g hp mw).1 = s.elems hp := by
  cases mw with
  | nil => rfl
  | fn f => exact elems_frame_goAppend g hp t s _ ht hs hlater

theorem later_Add {H : Type} (g : GrowthPolicy) (hp : Heap H) (t s : train)
    (mw : middleware H) (hs : s.Valid hp) (hlater : t.ptr = s.ptr → s.len ≤ t.len) :
    (t.Add g hp mw).2.ptr = s.ptr → s.len ≤ (t.Add g hp mw).2.len := by
  cases mw with
  | nil => exact hlater
  | fn f => exact later_goAppend g hp t s _ hs hlater

theorem elems_frame_addEach {H : Type} (g : GrowthPolicy) (s : train)
    (mws : List (middleware H)) :
    ∀ (hp : Heap H) (t : train), t.Valid hp → s.Valid hp →
      (t.ptr = s.ptr → s.len ≤ t.len) → s.elems (addEach g hp t mws).1 = s.elems hp := by
  induction mws with
  | nil => intro hp t _ _ _; rfl
  | cons mw rest ih =>
    intro hp t ht hs hlater
    rw [addEach_cons, ih _ _ (valid_Add g hp t mw ht) (valid_frame_Add g hp t s mw ht hs)
      (later_Add g hp t s mw hs hlater)]
    exact elems_frame_Add g hp t s mw ht hs hlater

/-! ## The loop of AddMany -/

theorem drop_of_getElem? {α : Type} (l : List α) :
    ∀ (i : Nat) (x : α), l[i]? = some x → l.drop i = x :: l.drop (i + 1) := by
  induction l with
  | nil => intro i x h; simp at h
  | cons a rest ih =>
    intro i x h
    cases i with
    | zero => simp at h; simp [h]
    | succ k =>
      simp only [List.getElem?_cons_succ] at h
      simpa using ih k x h

theorem elems_getElem? {H : Type} (hp : Heap H) (mws : train) (i : Nat)
    (hv : mws.Valid hp) (hi : i < mws.len) :
    (mws.elems hp)[i]? = some (mws.index hp i) := by
  obtain ⟨_, h2, h3⟩ := hv
  have hlen : i < (hp.getD mws.ptr []).length := by omega
  simp only [train.elems, train.index]
  rw [List.getElem?_take_of_lt hi, List.getElem?_eq_getElem hlen,
    List.getD_eq_getElem _ _ hlen]

/-- As long as no cell of `mws` lies where `t` appends (another backing array, or
the same one with `t` at least as long as `mws`), the loop of `AddMany` is the
sequence of `Add` calls on the elements that `mws` had when the loop began. -/
theorem addManyLoop_eq_addEach {H : Type} (g : GrowthPolicy) (mws : train) :
    ∀ (n i : Nat) (hp : Heap H) (t : train), t.Valid hp → mws.Valid hp →
      (t.ptr = mws.ptr → mws.len ≤ t.len) → i + n = mws.len →
      addManyLoop g mws n i hp t = addEach g hp t ((mws.elems hp).drop i) := by
  intro n
  induction n with
  | zero =>
    intro i hp t _ hm _ hi
    have hl := elems_length hp mws hm
    rw [List.drop_of_length_le (by omega)]
    rfl
  | succ k ih =>
    intro i hp t ht hm hlater hi
    rw [drop_of_getElem? _ i _ (elems_getElem? hp mws i hm (by omega)), addEach_cons]
    simp only [addManyLoop]
    rw [ih (i + 1) _ _ (valid_Add g hp t _ ht) (valid_frame_Add g hp t mws _ ht hm)
      (later_Add g hp t mws _ hm hlater) (by omega),
      elems_frame_Add g hp t mws _ ht hm hlater]

theorem AddMany_eq_addEach {H : Type} (g : GrowthPolicy) (hp : Heap H) (t mws : train)
    (ht : t.Valid hp) (hm : mws.Valid hp) (hlater : t.ptr = mws.ptr → mws.len ≤ t.len) :
    t.AddMany g hp mws = addEach g hp t (mws.elems hp) := by
  have h := addManyLoop_eq_addEach g mws mws.len 0 hp t ht hm hlater (by omega)
  simpa [train.AddMany] using h

theorem valid_goVariadic {H : Type} (hp : Heap H) (args : List (middleware H)) :
    (goVariadic hp args).2.Valid (goVariadic hp args).1 := by
  refine ⟨by simp [goVariadic], ?_, le_refl _⟩
  simp only [goVariadic]
  rw [getD_concat_length]

theorem elems_goVariadic {H : Type} (hp : Heap H) (args : List (middleware H)) :
    (goVariadic hp args).2.elems (goVariadic hp args).1 = args := by
  simp only [goVariadic, train.elems]
  rw [getD_concat_length, List.take_length]

theorem valid_frame_goVariadic {H : Type} (hp : Heap H) (args : List (middleware H))
    (s : train) (hs : s.Valid hp) : s.Valid (goVariadic hp args).1 := by
  obtain ⟨h1, h2, h3⟩ := hs
  refine ⟨by simp [goVariadic]; omega, ?_, h3⟩
  simp only [goVariadic]
  rw [getD_concat_lt hp _ _ h1]
  exact h2

theorem elems_frame_goVariadic {H : Type} (hp : Heap H) (args : List (middleware H))
    (s : train) (hs : s.Valid hp) : s.elems (goVariadic hp args).1 = s.elems hp := by
  simp only [goVariadic, train.elems]
  rw [getD_concat_lt hp _ _ hs.1]

/-- A call of `AddMany` with individual arguments is the sequence of `Add` calls
on them: the fresh argument array shares no cell with a train. -/
theorem AddManyOf_eq_addEach {H : Type} (g : GrowthPolicy) (hp : Heap H) (t : train)
    (args : List (middleware H)) (ht : t.Valid hp) :
    t.AddManyOf g hp args = addEach g (goVariadic hp args).1 t args := by
  have h := AddMany_eq_addEach g (goVariadic hp args).1 t (goVariadic hp args).2
    (valid_frame_goVariadic hp args t ht) (valid_goVariadic hp args)
    (fun h => by have := ht.1; simp only [goVariadic] at h; omega)
  rw [elems_goVariadic] at h
  exact h

theorem valid_AddManyOf {H : Type} (g : GrowthPolicy) (hp : Heap H) (t : train)
    (args : List (middleware H)) (ht : t.Valid hp) :
    (t.AddManyOf g hp args).2.Valid (t.AddManyOf g hp args).1 := by
  rw [AddManyOf_eq_addEach g hp t args ht]
  exact valid_addEach g args _ _ (valid_frame_goVariadic hp args t ht)

theorem elems_AddManyOf {H : Type} (g : GrowthPolicy) (hp : Heap H) (t : train)
    (args : List (middleware H)) (ht : t.Valid hp) :
    (t.AddManyOf g hp args).2.elems (t.AddManyOf g hp args).1
      = t.elems hp ++ args.filter (fun m => !m.isNil) := by
  rw [AddManyOf_eq_addEach g hp t args ht,
    elems_addEach g args _ _ (valid_frame_goVariadic hp args t ht),
    elems_frame_goVariadic hp args t ht]

theorem elems_frame_AddManyOf {H : Type} (g : GrowthPolicy) (hp : Heap H) (t s : train)
    (args : List (middleware H)) (ht : t.Valid hp) (hs : s.Valid hp)
    (hlater : t.ptr = s.ptr → s.len ≤ t.len) :
    s.elems (t.AddManyOf g hp args).1 = s.elems hp := by
  rw [AddManyOf_eq_addEach g hp t args ht,
    elems_frame_addEach g s args _ _ (valid_frame_goVariadic hp args t ht)
      (valid_frame_goVariadic hp args s hs) hlater,
    elems_frame_goVariadic hp args s hs]

/-! ## No nil middleware in a reachable train -/

theorem sound_of_getD_eq {H : Type} (hp hp2 : Heap H) (s : train)
    (hlen : hp.length ≤ hp2.length) (harr : hp2.getD s.ptr [] = hp.getD s.ptr [])
    (hs : s.Sound hp) : s.Sound hp2 := by
  obtain ⟨⟨h1, h2, h3⟩, h4⟩ := hs
  refine ⟨⟨by omega, by rw [harr]; exact h2, h3⟩, ?_⟩
  simpa only [train.elems, harr] using h4

theorem sound_frame_goAppend {H : Type} (g : GrowthPolicy) (hp : Heap H) (t s : train)
    (mw : middleware H) (ht : t.Valid hp) (hm : mw.isNil = false) (hs : s.Sound hp) :
    s.Sound (goAppend g hp t mw).1 := by
  unfold goAppend
  split
  · by_cases hp2 : t.ptr = s.ptr
    · obtain ⟨⟨h1, h2, h3⟩, h4⟩ := hs
      refine ⟨⟨by simpa using h1, ?_, h3⟩, ?_⟩
      · simp only []
        rw [← hp2, getD_set_self hp t.ptr _ ht.1, List.length_set, hp2]
        exact h2
      · intro x hx
        simp only [train.elems] at hx h4
        rw [← hp2, getD_set_self hp t.ptr _ ht.1, List.set_take, hp2] at hx
        rcases List.mem_or_eq_of_mem_set hx with hx | hx
        · exact h4 x hx
        · rw [hx]; exact hm
    · exact sound_of_getD_eq hp _ s (by simp) (getD_set_other hp _ _ _ hp2) hs
  · exact sound_of_getD_eq hp _ s (by simp) (getD_concat_lt hp _ _ hs.1.1) hs

theorem sound_frame_Add {H : Type} (g : GrowthPolicy) (hp : Heap H) (t s : train)
    (mw : middleware H) (ht : t.Valid hp) (hs : s.Sound hp) :
    s.Sound (t.Add g hp mw).1 := by
  cases mw with
  | nil => exact hs
  | fn f => exact sound_frame_goAppend g hp t s _ ht rfl hs

theorem sound_frame_goVariadic {H : Type} (hp : Heap H) (args : List (middleware H))
    (s : train) (hs : s.Sound hp) : s.Sound (goVariadic hp args).1 :=
  sound_of_getD_eq hp _ s (by simp [goVariadic]) (getD_concat_lt hp _ _ hs.1.1) hs

theorem sound_frame_New {H : Type} (hp : Heap H) (s : train) (hs : s.Sound hp) :
    s.Sound (New hp).1 :=
  sound_of_getD_eq hp _ s (by simp [New, goMake]) (getD_concat_lt hp _ _ hs.1.1) hs

theorem sound_New {H : Type} (hp : Heap H) : (New hp).2.Sound (New hp).1 := by
  refine ⟨valid_New hp, ?_⟩
  rw [elems_New]
  intro mw hmw
  cases hmw

theorem sound_Add {H : Type} (g : GrowthPolicy) (hp : Heap H) (t : train)
    (mw : middleware H) (ht : t.Sound hp) :
    (t.Add g hp mw).2.Sound (t.Add g hp mw).1 := by
  refine ⟨valid_Add g hp t mw ht.1, ?_⟩
  rw [elems_Add g hp t mw ht.1]
  intro m hm
  rcases List.mem_append.mp hm with h | h
  · exact ht.2 m h
  · simpa using (List.mem_filter.mp h).2

theorem sound_frame_addManyLoop {H : Type} (g : GrowthPolicy) (mws s : train) :
    ∀ (n i : Nat) (hp : Heap H) (t : train), t.Valid hp → s.Sound hp →
      s.Sound (addManyLoop g mws n i hp t).1 := by
  intro n
  induction n with
  | zero => intro i hp t _ hs; exact hs
  | succ k ih =>
    intro i hp t ht hs
    simp only [addManyLoop]
    exact ih _ _ _ (valid_Add g hp t _ ht) (sound_frame_Add g hp t s _ ht hs)

theorem sound_addManyLoop {H : Type} (g : GrowthPolicy) (mws : train) :
    ∀ (n i : Nat) (hp : Heap H) (t : train), t.Sound hp →
      (addManyLoop g mws n i hp t).2.Sound (addManyLoop g mws n i hp t).1 := by
  intro n
  induction n with
  | zero => intro i hp t ht; exact ht
  | succ k ih =>
    intro i hp t ht
    simp only [addManyLoop]
    exact ih _ _ _ (sound_Add g hp t _ ht)

theorem sound_keep {H : Type} (s : Client H) (r : Heap H × train)
    (hall : ∀ t ∈ s.trains, t.Sound s.heap)
    (hframe : ∀ t : train, t.Sound s.heap → t.Sound r.1) (hnew : r.2.Sound r.1) :
    ∀ t ∈ (s.keep r).trains, t.Sound (s.keep r).heap := by
  intro t ht
  simp only [Client.keep, List.mem_append, List.mem_singleton] at ht ⊢
  rcases ht with ht | ht
  · exact hframe t (hall t ht)
  · rw [ht]; exact hnew

theorem sound_step {H : Type} (g : GrowthPolicy) (s : Client H) (c : Call H)
    (hall : ∀ t ∈ s.trains, t.Sound s.heap) :
    ∀ t ∈ (s.step g c).trains, t.Sound (s.step g c).heap := by
  cases c with
  | new =>
    exact sound_keep s _ hall (fun t ht => sound_frame_New s.heap t ht) (sound_New s.heap)
  | add i mw =>
    simp only [Client.step]
    cases hi : s.trains[i]? with
    | none => exact hall
    | some t0 =>
      have h0 : t0.Sound s.heap := hall t0 (List.getElem?_mem hi)
      exact sound_keep s _ hall (fun t ht => sound_frame_Add g s.heap t0 t mw h0.1 ht)
        (sound_Add g s.heap t0 mw h0)
  | addMany i mws =>
    simp only [Client.step]
    cases hi : s.trains[i]? with
    | none => exact hall
    | some t0 =>
      have h0 : t0.Sound s.heap := hall t0 (List.getElem?_mem hi)
      exact sound_keep s _ hall
        (fun t ht => sound_frame_addManyLoop g _ t _ _ _ _
          (valid_frame_goVariadic s.heap mws t0 h0.1) (sound_frame_goVariadic s.heap mws t ht))
        (sound_addManyLoop g _ _ _ _ _ (sound_frame_goVariadic s.heap mws t0 h0))
  | addManySlice i j =>
    simp only [Client.step]
    split
    · rename_i t0 m0 hi hj
      have h0 : t0.Sound s.heap := hall t0 (List.getElem?_mem hi)
      exact sound_keep s _ hall
        (fun t ht => sound_frame_addManyLoop g _ t _ _ _ _ h0.1 ht)
        (sound_addManyLoop g _ _ _ _ _ h0)
    · exact hall

theorem sound_foldl {H : Type} (g : GrowthPolicy) (calls : List (Call H)) :
    ∀ s : Client H, (∀ t ∈ s.trains, t.Sound s.heap) →
      ∀ t ∈ (calls.foldl (Client.step g) s).trains,
        t.Sound (calls.foldl (Client.step g) s).heap := by
  induction calls with
  | nil => intro s hall; exact hall
  | cons c rest ih =>
    intro s hall
    simp only [List.foldl_cons]
    exact ih _ (sound_step g s c hall)

theorem applyLoop_ok {H : Type} (l : List (middleware H)) :
    (∀ mw ∈ l, mw.isNil = false) → ∀ h : Handler H, ∃ r, applyLoop l h = .ok r := by
  induction l with
  | nil => intro _ h; exact ⟨h, rfl⟩
  | cons mw rest ih =>
    intro hall h
    cases mw with
    | nil => simpa [middleware.isNil] using hall middleware.nil
    | fn f =>
      simp only [applyLoop, callMiddleware]
      exact ih (fun m hm => hall m (List.mem_cons_of_mem _ hm)) (f h)

/-- C10: every train a client obtains from `New()` by any sequence of `Add` and
`AddMany` calls with arbitrary arguments (nil middleware included) is a valid
slice without a nil element at the end of the sequence, whatever the other calls
wrote into shared backing arrays; for every handler (nil included) `Apply` on it
returns a handler and never calls a nil middleware. -/
theorem reachable_train_has_no_nil {H : Type} (g : GrowthPolicy) (calls : List (Call H))
    (t : train) (ht : t ∈ (Client.run g calls).trains) :
    t.Valid (Client.run g calls).heap ∧
    (∀ mw ∈ t.elems (Client.run g calls).heap, mw ≠ middleware.nil) ∧
    ∀ (D : H) (h : Handler H), ∃ r, t.Apply D (Client.run g calls).heap h = .ok r := by
  have hs : t.Sound (Client.run g calls).heap :=
    sound_foldl g calls ⟨[], []⟩ (fun t ht => by cases ht) t ht
  refine ⟨hs.1, ?_, ?_⟩
  · intro mw hmw hnil
    have := hs.2 mw hmw
    rw [hnil] at this
    cases this
  · intro D h
    exact applyLoop_ok _ hs.2 _

/-- C10, witness: a client that adds the markers 1, 2, 3 and a nil to a new train,
then a nil and the marker 4 to the result, then the marker 5 to the same result,
and last passes the train of the second step as the variadic slice of `AddMany`
on the first; the trains of the second and third step share their backing array
with the first. -/
theorem reachable_train_has_no_nil_witness :
    (⟨6, 7, 8⟩ : train) ∈ (Client.run goRuntime
      [Call.new,
        Call.addMany 0 [helperContextMiddleware 1, helperContextMiddleware 2, .nil,
          helperContextMiddleware 3],
        Call.addMany 1 [.nil, helperContextMiddleware 4],
        Call.add 1 (helperContextMiddleware 5),
        Call.addManySlice 1 2]).trains ∧
    ∀ (D : HandlerFunc) (h : Handler HandlerFunc), ∃ r,
      train.Apply D (Client.run goRuntime
        [Call.new,
          Call.addMany 0 [helperContextMiddleware 1, helperContextMiddleware 2, .nil,
            helperContextMiddleware 3],
          Call.addMany 1 [.nil, helperContextMiddleware 4],
          Call.add 1 (helperContextMiddleware 5),
          Call.addManySlice 1 2]).heap ⟨6, 7, 8⟩ h = .ok r :=
  ⟨by decide,
    (reachable_train_has_no_nil goRuntime
      [Call.new,
        Call.addMany 0 [helperContextMiddleware 1, helperContextMiddleware 2, .nil,
          helperContextMiddleware 3],
        Call.addMany 1 [.nil, helperContextMiddleware 4],
        Call.add 1 (helperContextMiddleware 5),
        Call.addManySlice 1 2] ⟨6, 7, 8⟩ (by decide)).2.2⟩

/-! ## Two trains from one base -/

theorem serveTrain_markers (D : HandlerFunc) (hp : Heap HandlerFunc) (t : train)
    (ns : List Int) (he : t.elems hp = ns.map helperContextMiddleware) (hne : ns ≠ []) :
    serveTrain D hp t = .ok ns.reverse := by
  obtain ⟨composed, h1, h2⟩ := serve_markers ns helperContextHandler none
  simp only [serveTrain, train.Apply, helperContextHandler, he] at h1 h2 ⊢
  rw [h1]
  simp only [h2, hne, if_false]
  simp [ServeHTTP]

/-- C11, as amended: with `helperContextMiddleware` and `helperContextHandler` as
in the ordering test, for every train `c1` built from `New()` by `AddMany` of at
least one marker and every non-empty list `ms` of markers, with
`c2 := c1.AddMany(ms...)`: once both trains exist, the output of
`Apply(c1, echo)` has exactly `len(c1)` entries and the output of
`Apply(c2, echo)` has exactly `len(c1) + len(ms)` entries, the two outputs differ
in length, and the output of `c1` is the one it had before `c2` was built. -/
theorem multipleTrains_outputs (g : GrowthPolicy) (D : HandlerFunc) (hp : Heap HandlerFunc)
    (first second : List Int) (hfirst : first ≠ []) (hsecond : second ≠ []) :
    ∃ out1 out2 : List Int,
      (contextMiddlewareMultipleTrains g D hp first second).result1 = .ok out1 ∧
      (contextMiddlewareMultipleTrains g D hp first second).result2 = .ok out2 ∧
      out1.length = (contextMiddlewareMultipleTrains g D hp first second).applier1.len ∧
      out2.length
        = (contextMiddlewareMultipleTrains g D hp first second).applier1.len + second.length ∧
      out1.length ≠ out2.length ∧
      serveTrain D (contextMiddlewareMultipleTrains g D hp first second).heapAtApplier1
        (contextMiddlewareMultipleTrains g D hp first second).applier1 = .ok out1 ∧
      out1 = first.reverse ∧ out2 = (first ++ second).reverse := by
  have hv1 := valid_AddManyOf g _ _ (first.map helperContextMiddleware) (valid_New hp)
  have he1 := elems_AddManyOf g _ _ (first.map helperContextMiddleware) (valid_New hp)
  rw [elems_New, filter_markers, List.nil_append] at he1
  have he2 := elems_AddManyOf g _ _ (second.map helperContextMiddleware) hv1
  rw [he1, filter_markers, ← List.map_append] at he2
  have hf := elems_frame_AddManyOf g _ _ _ (second.map helperContextMiddleware) hv1 hv1
    (fun _ => le_refl _)
  rw [he1] at hf
  have hlen := elems_length _ _ hv1
  rw [he1, List.length_map] at hlen
  have hne : first ++ second ≠ [] := by simp [hfirst]
  have hpos : 0 < second.length := List.length_pos.mpr hsecond
  refine ⟨first.reverse, (first ++ second).reverse, ?_, ?_, ?_, ?_, ?_, ?_, rfl, rfl⟩
  · exact serveTrain_markers D _ _ first hf hfirst
  · exact serveTrain_markers D _ _ (first ++ second) he2 hne
  · simp only [contextMiddlewareMultipleTrains, List.length_reverse]
    exact hlen
  · simp only [contextMiddlewareMultipleTrains, List.length_reverse, List.length_append]
    rw [← hlen]
  · simp only [List.length_reverse, List.length_append]
    omega
  · exact serveTrain_markers D _ _ first he1 hfirst

/-- C11, witness: the trains of the test, a base of the markers 1, 2 extended by
the markers 3, 4. -/
theorem multipleTrains_outputs_witness :
    ([1, 2] : List Int) ≠ [] ∧ ([3, 4] : List Int) ≠ [] ∧
    ∃ out1 out2 : List Int,
      (contextMiddlewareMultipleTrains goRuntime (fun _ => .ok []) [] [1, 2] [3, 4]).result1
        = .ok out1 ∧
      (contextMiddlewareMultipleTrains goRuntime (fun _ => .ok []) [] [1, 2] [3, 4]).result2
        = .ok out2 ∧
      out1.length = 2 ∧ out2.length = 4 := by
  obtain ⟨out1, out2, h1, h2, _, _, _, _, e1, e2⟩ :=
    multipleTrains_outputs goRuntime (fun _ => .ok []) [] [1, 2] [3, 4] (by decide) (by decide)
  exact ⟨by decide, by decide, out1, out2, h1, h2, by rw [e1]; rfl, by rw [e2]; rfl⟩

/-- C11, counterexample: when `c1` is built by `AddMany` of no marker and extended
by the markers 3, 4, `Apply(c1, echo)` is `helperContextHandler` itself, which
panics on the request without a list: there is no output of `len(c1) = 0`
entries. -/
theorem multipleTrains_empty_base_panics :
    (contextMiddlewareMultipleTrains goRuntime (fun _ => .ok []) [] [] [3, 4]).applier1.len = 0 ∧
    (contextMiddlewareMultipleTrains goRuntime (fun _ => .ok []) [] [] [3, 4]).result1
      = .error .typeAssertion ∧
    ¬ ∃ out1 : List Int,
      (contextMiddlewareMultipleTrains goRuntime (fun _ => .ok []) [] [] [3, 4]).result1
        = .ok out1 ∧
      out1.length
        = (contextMiddlewareMultipleTrains goRuntime (fun _ => .ok []) [] [] [3, 4]).applier1.len := by
  refine ⟨rfl, rfl, ?_⟩
  rintro ⟨out1, h, _⟩
  have h2 : (Except.error Panic.typeAssertion : Response) = .ok out1 := h
  cases h2

/-! ## AddMany on a slice that shares the backing array of the receiver -/

/-- When no cell of `mws` lies where `t` appends, the elements of
`t.AddMany(mws...)` are those of `t` followed by the non-nil entries of `mws`. -/
theorem elems_AddMany {H : Type} (g : GrowthPolicy) (hp : Heap H) (t mws : train)
    (ht : t.Valid hp) (hm : mws.Valid hp) (hlater : t.ptr = mws.ptr → mws.len ≤ t.len) :
    (t.AddMany g hp mws).2.elems (t.AddMany g hp mws).1
      = t.elems hp ++ (mws.elems hp).filter (fun m => !m.isNil) := by
  rw [AddMany_eq_addEach g hp t mws ht hm hlater]
  exact elems_addEach g _ hp t ht

/-- C6, the code at the failing input: `base := New().AddMany(w1, w2, w3)` (length
3, capacity 4), `long := base.Add(w4)`, then `base.AddMany(long...)` for the
markers 1 to 4. The first `Add` of the loop writes `w1` into cell 3 of the shared
backing array, which is `long[3]`, before the loop reads it: the elements of the
result are those of `base` followed by `w1, w2, w3, w1`, and a request served
through them answers 1, 3, 2, 1, 3, 2, 1. Calling `Add` for the entries
`w1, w2, w3, w4` that `long` had gives `base` followed by `w1, w2, w3, w4`. -/
theorem addMany_reads_overwritten_entry :
    markerShared.base = ⟨4, 3, 4⟩ ∧
    markerShared.long = ⟨4, 4, 4⟩ ∧
    markerShared.base.elems markerShared.heap
      = [helperContextMiddleware 1, helperContextMiddleware 2, helperContextMiddleware 3] ∧
    markerShared.long.elems markerShared.heap
      = [helperContextMiddleware 1, helperContextMiddleware 2, helperContextMiddleware 3,
          helperContextMiddleware 4] ∧
    (markerShared.base.AddMany goRuntime markerShared.heap markerShared.long).2.elems
        (markerShared.base.AddMany goRuntime markerShared.heap markerShared.long).1
      = markerShared.base.elems markerShared.heap
          ++ [helperContextMiddleware 1, helperContextMiddleware 2, helperContextMiddleware 3,
            helperContextMiddleware 1] ∧
    (markerShared.base.AddMany goRuntime markerShared.heap markerShared.long).2.elems
        (markerShared.base.AddMany goRuntime markerShared.heap markerShared.long).1
      ≠ markerShared.base.elems markerShared.heap
          ++ (markerShared.long.elems markerShared.heap).filter (fun mw => !mw.isNil) ∧
    observe ((markerShared.base.AddMany goRuntime markerShared.heap markerShared.long).2.elems
        (markerShared.base.AddMany goRuntime markerShared.heap markerShared.long).1)
      = .ok [1, 3, 2, 1, 3, 2, 1] ∧
    (addEach goRuntime markerShared.heap markerShared.base
        (markerShared.long.elems markerShared.heap)).2.elems
      (addEach goRuntime markerShared.heap markerShared.base
        (markerShared.long.elems markerShared.heap)).1
      = markerShared.base.elems markerShared.heap
          ++ (markerShared.long.elems markerShared.heap).filter (fun mw => !mw.isNil) := by
  refine ⟨rfl, rfl, rfl, rfl, rfl, ?_, rfl, rfl⟩
  intro h
  have h2 := congrArg observe h
  have h3 : (Except.ok [1, 3, 2, 1, 3, 2, 1] : Response) = .ok [4, 3, 2, 1, 3, 2, 1] := h2
  simp at h3

/-- With individual arguments, `Apply` distributes over an extension: the loop of
`Apply` over `c.AddMany(m1, ..., mn)` is the loop over `c` followed by the loop
over the arguments. -/
theorem Apply_AddManyOf {H : Type} (g : GrowthPolicy) (D : H) (hp : Heap H) (c : train)
    (mws : List (Handler H → Handler H)) (h : Handler H) (hv : c.Valid hp) :
    (c.AddManyOf g hp (mws.map middleware.fn)).2.Apply D
        (c.AddManyOf g hp (mws.map middleware.fn)).1 h
      = (c.Apply D hp h).bind (applyLoop (mws.map middleware.fn)) := by
  have he := elems_AddManyOf g hp c (mws.map middleware.fn) hv
  rw [filter_map_fn] at he
  simp only [train.Apply, he, applyLoop_append]

/-- C12, the code at the failing input: after `base := New().AddMany(w1, w2, w3)`
and `long := base.Add(w4)` for the markers 1 to 4, with `c := base`,
`mws := long` and `h := helperContextHandler`. `Apply(c, h)` is not nil.
`New().AddMany(long...)` reads `w1, w2, w3, w4`, so a request served through
`Apply(AddMany(New(), mws...), Apply(c, h))` answers 4, 3, 2, 1, 3, 2, 1; the loop
of `base.AddMany(long...)` overwrites `long[3]` by `w1` before it reads it, so a
request served through `Apply(AddMany(c, mws...), h)` answers
1, 3, 2, 1, 3, 2, 1. The two handlers differ. -/
theorem apply_extension_reads_overwritten_entry :
    (∃ r, (markerDistribution (fun _ => .ok [])).inner = .ok (.val r)) ∧
    serveApplied (markerDistribution (fun _ => .ok [])).composed
      = .ok [4, 3, 2, 1, 3, 2, 1] ∧
    serveApplied (markerDistribution (fun _ => .ok [])).extended
      = .ok [1, 3, 2, 1, 3, 2, 1] ∧
    (markerDistribution (fun _ => .ok [])).extended
      ≠ (markerDistribution (fun _ => .ok [])).composed := by
  refine ⟨⟨_, rfl⟩, rfl, rfl, ?_⟩
  intro h
  have h2 := congrArg serveApplied h
  have h3 : (Except.ok [1, 3, 2, 1, 3, 2, 1] : Response) = .ok [4, 3, 2, 1, 3, 2, 1] := h2
  simp at h3

/-- With individual arguments, two `AddMany` calls give the elements of one call
on the concatenation. -/
theorem elems_AddManyOf_append {H : Type} (g : GrowthPolicy) (hp : Heap H) (c : train)
    (xs ys : List (middleware H)) (hv : c.Valid hp) :
    ((c.AddManyOf g hp xs).2.AddManyOf g (c.AddManyOf g hp xs).1 ys).2.elems
        ((c.AddManyOf g hp xs).2.AddManyOf g (c.AddManyOf g hp xs).1 ys).1
      = (c.AddManyOf g hp (xs ++ ys)).2.elems (c.AddManyOf g hp (xs ++ ys)).1 := by
  rw [elems_AddManyOf g _ _ ys (valid_AddManyOf g hp c xs hv), elems_AddManyOf g hp c xs hv,
    elems_AddManyOf g hp c (xs ++ ys) hv, List.filter_append, List.append_assoc]

/-- A call `AddMany(c, mws...)` on an empty slice returns `c` and leaves the heap
as it is. -/
theorem AddMany_empty {H : Type} (g : GrowthPolicy) (hp : Heap H) (c mws : train)
    (h0 : mws.len = 0) : c.AddMany g hp mws = (hp, c) := by
  simp only [train.AddMany, h0, addManyLoop]

/-- A call of `AddMany` with nil arguments only returns `c`, with the elements it
had. -/
theorem AddManyOf_replicate_nil {H : Type} (g : GrowthPolicy) (hp : Heap H) (c : train)
    (n : Nat) (hv : c.Valid hp) :
    (c.AddManyOf g hp (List.replicate n middleware.nil)).2 = c ∧
    (c.AddManyOf g hp (List.replicate n middleware.nil)).2.elems
        (c.AddManyOf g hp (List.replicate n middleware.nil)).1 = c.elems hp := by
  have key : ∀ (k : Nat) (hp2 : Heap H),
      addEach g hp2 c (List.replicate k middleware.nil) = (hp2, c) := by
    intro k
    induction k with
    | zero => intro hp2; rfl
    | succ j ih =>
      intro hp2
      rw [List.replicate_succ, addEach_cons]
      exact ih hp2
  rw [AddManyOf_eq_addEach g hp c _ hv, key]
  exact ⟨rfl, elems_frame_goVariadic hp _ c hv⟩

/-- C13, the code at the failing input: after `base := New().AddMany(w1, w2, w3)`
and `long := base.Add(w4)` for the markers 1 to 4, with `c := base`, `xs := long`
and `ys` the marker 5. The sequence `xs` followed by `ys` is `w1, w2, w3, w4, w5`.
The loop of `base.AddMany(long...)` overwrites `long[3]` by `w1` before it reads
it, so the elements of `AddMany(AddMany(c, xs...), ys...)` end in `w1, w5`, while
those of `AddMany(c, (xs followed by ys)...)` end in `w4, w5`. -/
theorem addMany_concat_reads_overwritten_entry :
    markerConcatenation.all
      = [helperContextMiddleware 1, helperContextMiddleware 2, helperContextMiddleware 3,
          helperContextMiddleware 4, helperContextMiddleware 5] ∧
    markerConcatenation.twoCalls.elems markerConcatenation.heap
      = [helperContextMiddleware 1, helperContextMiddleware 2, helperContextMiddleware 3,
          helperContextMiddleware 1, helperContextMiddleware 2, helperContextMiddleware 3,
          helperContextMiddleware 1, helperContextMiddleware 5] ∧
    markerConcatenation.oneCall.elems markerConcatenation.heap
      = [helperContextMiddleware 1, helperContextMiddleware 2, helperContextMiddleware 3,
          helperContextMiddleware 1, helperContextMiddleware 2, helperContextMiddleware 3,
          helperContextMiddleware 4, helperContextMiddleware 5] ∧
    observe (markerConcatenation.twoCalls.elems markerConcatenation.heap)
      = .ok [5, 1, 3, 2, 1, 3, 2, 1] ∧
    observe (markerConcatenation.oneCall.elems markerConcatenation.heap)
      = .ok [5, 4, 3, 2, 1, 3, 2, 1] ∧
    markerConcatenation.twoCalls.elems markerConcatenation.heap
      ≠ markerConcatenation.oneCall.elems markerConcatenation.heap := by
  refine ⟨rfl, rfl, rfl, rfl, rfl, ?_⟩
  intro h
  have h2 := congrArg observe h
  have h3 : (Except.ok [5, 1, 3, 2, 1, 3, 2, 1] : Response)
      = .ok [5, 4, 3, 2, 1, 3, 2, 1] := h2
  simp at h3

end Trainware
